import Mathlib

/-!
Shallow embedding of the AnchorHex rules engine (`src/game/engine.ts`) and
verification of its specified properties.

The engine is a pure-function rules kernel for a two-player connection game on
a fixed 8×8 flat-top hex grid.  Boards are embedded as total functions from
in-bounds coordinates to cell values; the JavaScript arrays-of-arrays are
fixed-size, so this is a faithful model of every in-bounds read and of the
value-semantics copies (`cloneBoard` + assignment becomes `placeAt`).  The
queue-based BFS loop is embedded as a structurally recursive worklist with an
explicit step budget of `ROWS * COLS`; each loop iteration of the source pops
one queue entry and every pushed entry is a newly visited distinct cell, so
`ROWS * COLS` steps always suffice (this sufficiency is discharged formally in
`mem_bfsFromBase_iff`, whose proof carries the bound `queue.length +
(unvisited cells) ≤ fuel` through the recursion).
-/

namespace AnchorHex

/-- `ROWS` from the source: the board has 8 rows. -/
abbrev ROWS : Nat := 8

/-- `COLS` from the source: the board has 8 columns. -/
abbrev COLS : Nat := 8

/-- The closed cell enumeration `EMPTY | WHITE_STONE | BLACK_STONE | WHITE_BASE |
BLACK_BASE` (source values 0–4). -/
inductive Cell where
  | empty
  | whiteStone
  | blackStone
  | whiteBase
  | blackBase
deriving DecidableEq, Fintype

/-- The two players (source type `Player = "BLACK" | "WHITE"`). -/
inductive Player where
  | white
  | black
deriving DecidableEq, Fintype

/-- An in-bounds coordinate: row in `Fin ROWS`, column in `Fin COLS`. -/
abbrev Pos : Type := Fin ROWS × Fin COLS

/-- A board: a total assignment of cells to the 8×8 in-bounds coordinates,
embedding the source's `Cell[][]` array. -/
abbrev Board : Type := Pos → Cell

/-- `WHITE_BASE_POS = { r: 0, c: 4 }`. -/
def WHITE_BASE_POS : Pos := ((0 : Fin ROWS), (4 : Fin COLS))

/-- `BLACK_BASE_POS = { r: ROWS - 1, c: 3 }`. -/
def BLACK_BASE_POS : Pos := ((7 : Fin ROWS), (3 : Fin COLS))

/-- `makeInitialBoard`: all cells empty except the two bases. -/
def makeInitialBoard : Board := fun p =>
  if p = WHITE_BASE_POS then Cell.whiteBase
  else if p = BLACK_BASE_POS then Cell.blackBase
  else Cell.empty

/-- `ODD_Q_DIRS` from the source; each entry is `(dc, dr)`, matching the
destructuring `for (const [dc, dr] of dirs)`. -/
def ODD_Q_DIRS : List (Int × Int) :=
  [(1, 0), (1, -1), (0, -1), (-1, -1), (-1, 0), (0, 1)]

/-- `EVEN_Q_DIRS` from the source; each entry is `(dc, dr)`. -/
def EVEN_Q_DIRS : List (Int × Int) :=
  [(1, 1), (1, 0), (0, -1), (-1, 0), (-1, 1), (0, 1)]

/-- `inBounds(r, c)`: `r >= 0 && r < ROWS && c >= 0 && c < COLS`. -/
def inBounds (r c : Int) : Bool :=
  decide (0 ≤ r ∧ r < (ROWS : Int) ∧ 0 ≤ c ∧ c < (COLS : Int))

/-- Converts an integer coordinate to an in-bounds `Pos` exactly when
`inBounds` holds (the source's guarded `out.push([nr, nc])`). -/
def toPos? (r c : Int) : Option Pos :=
  if h : inBounds r c = true then
    have h' := of_decide_eq_true h
    some (⟨r.toNat, by omega⟩, ⟨c.toNat, by omega⟩)
  else none

/-- `neighbors(r, c)`: picks `EVEN_Q_DIRS` or `ODD_Q_DIRS` by column parity and
keeps the in-bounds results `(r + dr, c + dc)`. -/
def neighbors (p : Pos) : List Pos :=
  let dirs := if (p.2 : Nat) % 2 = 0 then EVEN_Q_DIRS else ODD_Q_DIRS
  dirs.filterMap fun d => toPos? ((p.1 : Int) + d.2) ((p.2 : Int) + d.1)

/-- `playerStone(p)`. -/
def playerStone : Player → Cell
  | .white => Cell.whiteStone
  | .black => Cell.blackStone

/-- `playerBase(p)`. -/
def playerBase : Player → Cell
  | .white => Cell.whiteBase
  | .black => Cell.blackBase

/-- `playerBasePos(p)`. -/
def playerBasePos : Player → Pos
  | .white => WHITE_BASE_POS
  | .black => BLACK_BASE_POS

/-- The two BFS traversal modes (`"stones+empties" | "emptiesOnly"`). -/
inductive Mode where
  | stonesAndEmpties
  | emptiesOnly
deriving DecidableEq

/-- The expansion predicate of `bfsFromBase`: in `stones+empties` mode a cell is
traversable iff it is empty, the player's own base, or the player's own stone;
in `emptiesOnly` mode iff it is exactly empty. -/
def trav (b : Board) (pl : Player) (mode : Mode) (p : Pos) : Bool :=
  match mode with
  | .stonesAndEmpties =>
      decide (b p = Cell.empty ∨ b p = playerBase pl ∨ b p = playerStone pl)
  | .emptiesOnly => decide (b p = Cell.empty)

/-- The inner `for (const [nr, nc] of neighbors(r, c))` loop of `bfsFromBase`:
each unvisited traversable neighbor is marked visited and appended to the
pending queue, sequentially. -/
def expand (t : Pos → Bool) : List Pos → Finset Pos → List Pos → Finset Pos × List Pos
  | [], vis, q => (vis, q)
  | n :: ns, vis, q =>
      if n ∉ vis ∧ t n = true then expand t ns (insert n vis) (q ++ [n])
      else expand t ns vis q

/-- The `while (qi < q.length)` loop of `bfsFromBase`, as a worklist over the
unprocessed queue suffix.  `fuel` bounds the number of loop iterations; the
source loop pops one entry per iteration and only ever pushes newly visited
distinct cells, so `ROWS * COLS` iterations always suffice. -/
def bfsAux (t : Pos → Bool) : Nat → Finset Pos → List Pos → Finset Pos
  | _, vis, [] => vis
  | 0, vis, _ :: _ => vis
  | fuel + 1, vis, p :: rest =>
      let s := expand t (neighbors p) vis rest
      bfsAux t fuel s.1 s.2

/-- `bfsFromBase(board, player, mode)`: the visited mask of the BFS started at
the player's base (marked visited unconditionally). -/
def bfsFromBase (b : Board) (pl : Player) (mode : Mode) : Pos → Bool := fun p =>
  decide (p ∈ bfsAux (trav b pl mode) (ROWS * COLS)
    {playerBasePos pl} [playerBasePos pl])

/-- The cell-value character appended by `rowStr += board[r][c]` (the numeric
cell codes 0–4 render as single digits). -/
def cellChar : Cell → Char
  | .empty => '0'
  | .whiteStone => '1'
  | .blackStone => '2'
  | .whiteBase => '3'
  | .blackBase => '4'

/-- One row of `boardHash`: the 8 cell characters of row `r` in column order. -/
def rowChars (b : Board) (r : Fin ROWS) : List Char :=
  List.ofFn fun c : Fin COLS => cellChar (b (r, c))

/-- `boardHash(board)`: the row strings joined by `"|"` (`parts.join("|")`,
unrolled for the fixed `ROWS = 8`). -/
def boardHash (b : Board) : String :=
  ⟨rowChars b 0 ++ '|' :: (rowChars b 1 ++ '|' :: (rowChars b 2 ++
    '|' :: (rowChars b 3 ++ '|' :: (rowChars b 4 ++ '|' :: (rowChars b 5 ++
    '|' :: (rowChars b 6 ++ '|' :: rowChars b 7))))))⟩

/-- `cloneBoard` followed by `tmp[r][c] = v`: the board updated at one cell
(value semantics; the source never mutates a caller-held board). -/
def placeAt (b : Board) (p : Pos) (v : Cell) : Board := fun q =>
  if q = p then v else b q

/-- `resolveCaptures(board)`: with both reachability masks computed on the same
pre-resolution board, every white stone outside the white mask and every black
stone outside the black mask becomes empty; all other cells are copied. -/
def resolveCaptures (b : Board) : Board :=
  let wReach := bfsFromBase b .white .stonesAndEmpties
  let bReach := bfsFromBase b .black .stonesAndEmpties
  fun p =>
    let v := b p
    if v = Cell.whiteStone ∧ wReach p = false then Cell.empty
    else if v = Cell.blackStone ∧ bReach p = false then Cell.empty
    else v

/-- `computeLegalMoves(board, player, opts?)` at one cell (the source mask's
entry at `(r, c)` depends only on that cell, so the boolean grid is embedded
pointwise).  Non-empty cells are never legal; for an empty cell the baseline is
reachability on the current board, and when the baseline fails or a forbidden
set is supplied, the placement is simulated, captures resolved, legality
re-derived from the survival of the placed stone, and the forbidden-fingerprint
test applied. -/
def computeLegalMoves (b : Board) (pl : Player) (forbid : Option (Finset String))
    (p : Pos) : Bool :=
  if b p ≠ Cell.empty then false
  else
    let l0 := bfsFromBase b pl .stonesAndEmpties p
    match forbid with
    | none =>
        if l0 then true
        else decide (resolveCaptures (placeAt b p (playerStone pl)) p = playerStone pl)
    | some s =>
        let after := resolveCaptures (placeAt b p (playerStone pl))
        (l0 || decide (after p = playerStone pl)) && !(decide (boardHash after ∈ s))

/-- `placeStone(board, player, r, c, opts?)` for an in-bounds coordinate:
reject when the cell is not empty, reject when not legal, otherwise place,
resolve captures, and reject when the resolved fingerprint is forbidden. -/
def placeStone (b : Board) (pl : Player) (p : Pos)
    (forbid : Option (Finset String)) : Option Board :=
  if b p ≠ Cell.empty then none
  else if computeLegalMoves b pl forbid p = false then none
  else
    let resolved := resolveCaptures (placeAt b p (playerStone pl))
    match forbid with
    | some s => if boardHash resolved ∈ s then none else some resolved
    | none => some resolved

/-- `placeStone` invoked with raw integer coordinates, with JavaScript indexing
semantics for its first statement `if (board[r][c] !== EMPTY) return null`:
when `r` is outside `0 … ROWS-1`, `board[r]` is `undefined` and reading
`[c]` on it throws a `TypeError` (modelled as `Except.error`); when only `c` is
out of range, `board[r][c]` reads as `undefined`, which differs from `EMPTY`,
so the guard returns `null`.  All later statements index only in-bounds cells. -/
def placeStoneRaw (b : Board) (pl : Player) (r c : Int)
    (forbid : Option (Finset String)) : Except Unit (Option Board) :=
  if hr : 0 ≤ r ∧ r < (ROWS : Int) then
    if hc : 0 ≤ c ∧ c < (COLS : Int) then
      .ok (placeStone b pl (⟨r.toNat, by omega⟩, ⟨c.toNat, by omega⟩) forbid)
    else .ok none
  else .error ()

/-- The per-player score record returned by `computeAreaScore` (totals plus the
`breakdown` fields, flattened). -/
structure AreaScore where
  white : Nat
  black : Nat
  wStones : Nat
  bStones : Nat
  wTerr : Nat
  bTerr : Nat

/-- The white-territory test of the scoring loop: the cell is empty, reachable
from the white base under `emptiesOnly`, and not so reachable from the black
base. -/
def isWhiteTerr (b : Board) (p : Pos) : Bool :=
  decide (b p = Cell.empty) && bfsFromBase b .white .emptiesOnly p
    && !(bfsFromBase b .black .emptiesOnly p)

/-- The black-territory test of the scoring loop. -/
def isBlackTerr (b : Board) (p : Pos) : Bool :=
  decide (b p = Cell.empty) && bfsFromBase b .black .emptiesOnly p
    && !(bfsFromBase b .white .emptiesOnly p)

/-- `computeAreaScore(board)`: per-player stone counts plus exclusive
empty-only-reachable territory counts; totals are `stones + territory`. -/
def computeAreaScore (b : Board) : AreaScore :=
  let wStones := (Finset.univ.filter fun p : Pos => b p = Cell.whiteStone).card
  let bStones := (Finset.univ.filter fun p : Pos => b p = Cell.blackStone).card
  let wTerr := (Finset.univ.filter fun p : Pos => isWhiteTerr b p = true).card
  let bTerr := (Finset.univ.filter fun p : Pos => isBlackTerr b p = true).card
  { white := wStones + wTerr, black := bStones + bTerr,
    wStones := wStones, bStones := bStones, wTerr := wTerr, bTerr := bTerr }

/-- One step of declarative connectivity: `y` is a neighbor of `x` and is
traversable. -/
def stepRel (t : Pos → Bool) (x y : Pos) : Prop := y ∈ neighbors x ∧ t y = true

/-- Declarative reachability along `stepRel`: a path of neighboring cells from
`s` to `p` in which every cell after `s` satisfies `t`. -/
def ReachesVia (t : Pos → Bool) (s p : Pos) : Prop :=
  Relation.ReflTransGen (stepRel t) s p

/-- Declarative reachability from the player's base under the mode's
traversability predicate. -/
def Reaches (b : Board) (pl : Player) (mode : Mode) (p : Pos) : Prop :=
  ReachesVia (trav b pl mode) (playerBasePos pl) p

/-- Unfolding `resolveCaptures` at one cell. -/
theorem resolveCaptures_apply (b : Board) (p : Pos) :
    resolveCaptures b p =
      if b p = Cell.whiteStone ∧ bfsFromBase b .white .stonesAndEmpties p = false then
        Cell.empty
      else if b p = Cell.blackStone ∧ bfsFromBase b .black .stonesAndEmpties p = false then
        Cell.empty
      else b p := rfl

/-- Unfolding `computeLegalMoves` without a forbidden set. -/
theorem computeLegalMoves_none_apply (b : Board) (pl : Player) (p : Pos) :
    computeLegalMoves b pl none p =
      if b p ≠ Cell.empty then false
      else if bfsFromBase b pl .stonesAndEmpties p then true
      else decide (resolveCaptures (placeAt b p (playerStone pl)) p = playerStone pl) := rfl

/-- Unfolding `computeLegalMoves` with a forbidden set. -/
theorem computeLegalMoves_some_apply (b : Board) (pl : Player) (s : Finset String)
    (p : Pos) :
    computeLegalMoves b pl (some s) p =
      if b p ≠ Cell.empty then false
      else
        (bfsFromBase b pl .stonesAndEmpties p
          || decide (resolveCaptures (placeAt b p (playerStone pl)) p = playerStone pl))
        && !(decide (boardHash (resolveCaptures (placeAt b p (playerStone pl))) ∈ s)) := rfl

/-- Unfolding `trav` in `stones+empties` mode. -/
theorem trav_SE_apply (b : Board) (pl : Player) (q : Pos) :
    trav b pl .stonesAndEmpties q =
      decide (b q = Cell.empty ∨ b q = playerBase pl ∨ b q = playerStone pl) := rfl

/-- The inner neighbor loop never unmarks: the visited set only grows. -/
theorem expand_vis_subset (t : Pos → Bool) (ns : List Pos) (vis : Finset Pos)
    (q : List Pos) : vis ⊆ (expand t ns vis q).1 := by
  induction ns generalizing vis q with
  | nil => exact fun x hx => hx
  | cons n ns ih =>
    simp only [expand]
    split
    · exact fun x hx => ih (insert n vis) (q ++ [n]) (Finset.mem_insert_of_mem hx)
    · exact ih vis q

/-- The inner neighbor loop never drops pending queue entries. -/
theorem expand_queue_subset (t : Pos → Bool) (ns : List Pos) (vis : Finset Pos)
    (q : List Pos) : ∀ x ∈ q, x ∈ (expand t ns vis q).2 := by
  induction ns generalizing vis q with
  | nil => exact fun x hx => hx
  | cons n ns ih =>
    simp only [expand]
    split
    · exact fun x hx => ih (insert n vis) (q ++ [n]) x (by simp [hx])
    · exact ih vis q

/-- Every cell visited by the inner loop was visited before or is a traversable
element of the neighbor list. -/
theorem mem_expand_vis (t : Pos → Bool) (ns : List Pos) (vis : Finset Pos)
    (q : List Pos) : ∀ x ∈ (expand t ns vis q).1, x ∈ vis ∨ (x ∈ ns ∧ t x = true) := by
  induction ns generalizing vis q with
  | nil => exact fun x hx => Or.inl hx
  | cons n ns ih =>
    intro x hx
    simp only [expand] at hx
    split at hx
    case isTrue h =>
      rcases ih (insert n vis) (q ++ [n]) x hx with h1 | h2
      · rcases Finset.mem_insert.1 h1 with rfl | h1
        · exact Or.inr ⟨List.mem_cons_self _ _, h.2⟩
        · exact Or.inl h1
      · exact Or.inr ⟨List.mem_cons_of_mem _ h2.1, h2.2⟩
    case isFalse h =>
      rcases ih vis q x hx with h1 | h2
      · exact Or.inl h1
      · exact Or.inr ⟨List.mem_cons_of_mem _ h2.1, h2.2⟩

/-- Every queue entry produced by the inner loop was pending before or is a
traversable element of the neighbor list. -/
theorem mem_expand_queue (t : Pos → Bool) (ns : List Pos) (vis : Finset Pos)
    (q : List Pos) : ∀ x ∈ (expand t ns vis q).2, x ∈ q ∨ (x ∈ ns ∧ t x = true) := by
  induction ns generalizing vis q with
  | nil => exact fun x hx => Or.inl hx
  | cons n ns ih =>
    intro x hx
    simp only [expand] at hx
    split at hx
    case isTrue h =>
      rcases ih (insert n vis) (q ++ [n]) x hx with h1 | h2
      · rcases List.mem_append.1 h1 with h1 | h1
        · exact Or.inl h1
        · rcases List.mem_singleton.1 h1 with rfl
          exact Or.inr ⟨List.mem_cons_self _ _, h.2⟩
      · exact Or.inr ⟨List.mem_cons_of_mem _ h2.1, h2.2⟩
    case isFalse h =>
      rcases ih vis q x hx with h1 | h2
      · exact Or.inl h1
      · exact Or.inr ⟨List.mem_cons_of_mem _ h2.1, h2.2⟩

/-- Cells the inner loop adds to the visited set are also queued. -/
theorem expand_vis_mem_queue (t : Pos → Bool) (ns : List Pos) (vis : Finset Pos)
    (q : List Pos) :
    ∀ x ∈ (expand t ns vis q).1, x ∈ vis ∨ x ∈ (expand t ns vis q).2 := by
  induction ns generalizing vis q with
  | nil => exact fun x hx => Or.inl hx
  | cons n ns ih =>
    intro x hx
    simp only [expand] at hx ⊢
    split
    case isTrue h =>
      rw [if_pos h] at hx
      rcases ih (insert n vis) (q ++ [n]) x hx with h1 | h1
      · rcases Finset.mem_insert.1 h1 with rfl | h1
        · exact Or.inr (expand_queue_subset t ns _ _ x (by simp))
        · exact Or.inl h1
      · exact Or.inr h1
    case isFalse h =>
      rw [if_neg h] at hx
      exact ih vis q x hx

/-- After the inner loop, every traversable element of the neighbor list is
visited. -/
theorem expand_complete (t : Pos → Bool) (ns : List Pos) (vis : Finset Pos)
    (q : List Pos) : ∀ n ∈ ns, t n = true → n ∈ (expand t ns vis q).1 := by
  induction ns generalizing vis q with
  | nil => intro n hn; cases hn
  | cons m ns ih =>
    intro n hn ht
    simp only [expand]
    rcases List.mem_cons.1 hn with rfl | hn
    · split
      case isTrue h => exact expand_vis_subset t ns _ _ (Finset.mem_insert_self n vis)
      case isFalse h =>
        have hv : n ∈ vis := by
          by_contra hnv
          exact h ⟨hnv, ht⟩
        exact expand_vis_subset t ns vis q hv
    · split
      · exact ih (insert m vis) (q ++ [m]) n hn ht
      · exact ih vis q n hn ht

/-- The loop measure: pending entries plus unvisited cells never grows across
the inner loop (each push marks a previously unvisited cell). -/
theorem expand_measure (t : Pos → Bool) (ns : List Pos) (vis : Finset Pos)
    (q : List Pos) :
    (expand t ns vis q).2.length + (Finset.univ \ (expand t ns vis q).1).card ≤
      q.length + (Finset.univ \ vis).card := by
  induction ns generalizing vis q with
  | nil => exact le_refl _
  | cons n ns ih =>
    simp only [expand]
    split
    case isTrue h =>
      refine (ih (insert n vis) (q ++ [n])).trans ?_
      have hn : n ∈ Finset.univ \ vis := Finset.mem_sdiff.2 ⟨Finset.mem_univ n, h.1⟩
      have h1 : (Finset.univ \ insert n vis) = (Finset.univ \ vis).erase n := by
        ext x
        simp only [Finset.mem_sdiff, Finset.mem_erase, Finset.mem_insert, Finset.mem_univ,
          true_and]
        tauto
      have h2 : ((Finset.univ \ vis).erase n).card = (Finset.univ \ vis).card - 1 :=
        Finset.card_erase_of_mem hn
      have h3 : 0 < (Finset.univ \ vis).card := Finset.card_pos.2 ⟨n, hn⟩
      rw [h1, h2]
      simp only [List.length_append, List.length_singleton]
      omega
    case isFalse h => exact ih vis q

/-- The visited set only grows across the whole BFS loop. -/
theorem bfsAux_subset (t : Pos → Bool) (fuel : Nat) (vis : Finset Pos)
    (q : List Pos) : vis ⊆ bfsAux t fuel vis q := by
  induction fuel generalizing vis q with
  | zero => cases q <;> exact fun x hx => hx
  | succ fuel ih =>
    cases q with
    | nil => exact fun x hx => hx
    | cons p rest =>
      exact (expand_vis_subset t (neighbors p) vis rest).trans (ih _ _)

/-- Soundness of the BFS loop: starting from visited and pending cells that are
all reachable, every cell in the final mask is reachable. -/
theorem bfsAux_sound (t : Pos → Bool) (s : Pos) (fuel : Nat) (vis : Finset Pos)
    (q : List Pos) (hv : ∀ x ∈ vis, ReachesVia t s x)
    (hq : ∀ x ∈ q, ReachesVia t s x) :
    ∀ x ∈ bfsAux t fuel vis q, ReachesVia t s x := by
  induction fuel generalizing vis q with
  | zero => cases q <;> exact hv
  | succ fuel ih =>
    cases q with
    | nil => exact hv
    | cons p rest =>
      refine ih _ _ ?_ ?_
      · intro x hx
        rcases mem_expand_vis t (neighbors p) vis rest x hx with h1 | h2
        · exact hv x h1
        · exact (hq p (List.mem_cons_self _ _)).tail ⟨h2.1, h2.2⟩
      · intro x hx
        rcases mem_expand_queue t (neighbors p) vis rest x hx with h1 | h2
        · exact hq x (List.mem_cons_of_mem _ h1)
        · exact (hq p (List.mem_cons_self _ _)).tail ⟨h2.1, h2.2⟩

/-- Completeness engine for the BFS loop: with enough fuel and a visited set
that is neighbor-closed except at pending cells, the final mask is closed under
traversable neighbors. -/
theorem bfsAux_closed (t : Pos → Bool) (fuel : Nat) (vis : Finset Pos) (q : List Pos)
    (hfuel : q.length + (Finset.univ \ vis).card ≤ fuel)
    (hcl : ∀ x ∈ vis, x ∉ q → ∀ y ∈ neighbors x, t y = true → y ∈ vis) :
    ∀ x ∈ bfsAux t fuel vis q, ∀ y ∈ neighbors x, t y = true →
      y ∈ bfsAux t fuel vis q := by
  induction fuel generalizing vis q with
  | zero =>
    cases q with
    | nil => exact fun x hx y hy ht => hcl x hx (List.not_mem_nil x) y hy ht
    | cons p rest => simp at hfuel
  | succ fuel ih =>
    cases q with
    | nil => exact fun x hx y hy ht => hcl x hx (List.not_mem_nil x) y hy ht
    | cons p rest =>
      refine ih _ _ ?_ ?_
      · refine (expand_measure t (neighbors p) vis rest).trans ?_
        simp only [List.length_cons] at hfuel
        omega
      · intro x hx hxq y hy hty
        rcases expand_vis_mem_queue t (neighbors p) vis rest x hx with hxv | hxq'
        · by_cases hxp : x = p
          · subst hxp
            exact expand_complete t (neighbors x) vis rest y hy hty
          · have hxr : x ∉ rest := fun hr =>
              hxq (expand_queue_subset t (neighbors p) vis rest x hr)
            have := hcl x hxv (by simp [hxp, hxr]) y hy hty
            exact expand_vis_subset t (neighbors p) vis rest this
        · exact absurd hxq' hxq

/-- The BFS mask is exactly declarative reachability from the player's base:
the base itself plus every cell joined to it by a path of neighboring cells
that are traversable under the mode. -/
theorem mem_bfsFromBase_iff (b : Board) (pl : Player) (mode : Mode) (p : Pos) :
    bfsFromBase b pl mode p = true ↔ Reaches b pl mode p := by
  unfold bfsFromBase Reaches
  rw [decide_eq_true_iff]
  constructor
  · intro h
    refine bfsAux_sound (trav b pl mode) (playerBasePos pl) _ _ _ ?_ ?_ p h
    · intro x hx
      rcases Finset.mem_singleton.1 hx with rfl
      exact Relation.ReflTransGen.refl
    · intro x hx
      rcases List.mem_singleton.1 hx with rfl
      exact Relation.ReflTransGen.refl
  · intro h
    have hcard : ((1 : Nat) + (Finset.univ \ ({playerBasePos pl} : Finset Pos)).card)
        ≤ ROWS * COLS := by
      cases pl <;> decide
    induction h with
    | refl => exact bfsAux_subset _ _ _ _ (Finset.mem_singleton_self _)
    | tail hab hstep ih =>
      refine bfsAux_closed (trav b pl mode) (ROWS * COLS) _ _ ?_ ?_ _ ih _ hstep.1 hstep.2
      · simpa using hcard
      · intro x hx hxq
        rcases Finset.mem_singleton.1 hx with rfl
        exact absurd (List.mem_singleton.2 rfl) hxq

/-- Placing one's own stone on a cell preserves `stones+empties`
traversability of every cell. -/
theorem trav_placeAt (b : Board) (pl : Player) (p : Pos) :
    ∀ q, trav b pl .stonesAndEmpties q = true →
      trav (placeAt b p (playerStone pl)) pl .stonesAndEmpties q = true := by
  intro q hq
  rw [trav_SE_apply] at hq ⊢
  by_cases hqp : q = p
  · subst hqp
    simp [placeAt]
  · simpa [placeAt, hqp] using hq

/-- Capture resolution only turns stones into empties, so it preserves
`stones+empties` traversability of every cell. -/
theorem trav_resolveCaptures (b : Board) (pl : Player) :
    ∀ q, trav b pl .stonesAndEmpties q = true →
      trav (resolveCaptures b) pl .stonesAndEmpties q = true := by
  intro q hq
  rw [trav_SE_apply] at hq ⊢
  rw [decide_eq_true_iff] at hq ⊢
  rw [resolveCaptures_apply]
  rcases hq with hq | hq | hq
  · rw [hq]; simp
  · cases pl <;> rw [hq] <;> simp [playerBase]
  · cases pl
    · rw [hq]
      by_cases hm : bfsFromBase b .white .stonesAndEmpties q = false <;>
        simp [playerStone, hm]
    · rw [hq]
      by_cases hm : bfsFromBase b .black .stonesAndEmpties q = false <;>
        simp [playerStone, hm]

/-- An empty cell reachable from the player's base on the current board is
still reachable after the player's stone is placed on it. -/
theorem reaches_placeAt (b : Board) (pl : Player) (p : Pos)
    (hr : Reaches b pl .stonesAndEmpties p) :
    Reaches (placeAt b p (playerStone pl)) pl .stonesAndEmpties p :=
  Relation.ReflTransGen.mono
    (fun _ y hxy => ⟨hxy.1, trav_placeAt b pl p y hxy.2⟩) hr

/-- A reachable empty cell survives the place-then-resolve sequence: the placed
stone is still present after capture resolution. -/
theorem survive_of_reach (b : Board) (pl : Player) (p : Pos)
    (hr : Reaches b pl .stonesAndEmpties p) :
    resolveCaptures (placeAt b p (playerStone pl)) p = playerStone pl := by
  have hmask : bfsFromBase (placeAt b p (playerStone pl)) pl .stonesAndEmpties p = true :=
    (mem_bfsFromBase_iff _ pl .stonesAndEmpties p).2 (reaches_placeAt b pl p hr)
  have hbp : placeAt b p (playerStone pl) p = playerStone pl := by simp [placeAt]
  rw [resolveCaptures_apply, hbp]
  cases pl <;> simp only [playerStone] at hmask ⊢ <;> simp [hmask]

/-- A true entry of the legal-move mask means the cell is empty and either the
baseline reachability held or the simulated placed stone survived resolution. -/
theorem legal_true_cases (b : Board) (pl : Player) (forbid : Option (Finset String))
    (p : Pos) (h : computeLegalMoves b pl forbid p = true) :
    b p = Cell.empty ∧
      (bfsFromBase b pl .stonesAndEmpties p = true ∨
        resolveCaptures (placeAt b p (playerStone pl)) p = playerStone pl) := by
  cases forbid with
  | none =>
    rw [computeLegalMoves_none_apply] at h
    by_cases hemp : b p = Cell.empty
    · refine ⟨hemp, ?_⟩
      rw [if_neg (by simp [hemp])] at h
      by_cases hl0 : bfsFromBase b pl .stonesAndEmpties p = true
      · exact Or.inl hl0
      · rw [if_neg (by simpa using hl0)] at h
        exact Or.inr (of_decide_eq_true h)
    · rw [if_pos hemp] at h
      cases h
  | some s =>
    rw [computeLegalMoves_some_apply] at h
    by_cases hemp : b p = Cell.empty
    · refine ⟨hemp, ?_⟩
      rw [if_neg (by simp [hemp]), Bool.and_eq_true, Bool.or_eq_true] at h
      rcases h with ⟨h1 | h1, _⟩
      · exact Or.inl h1
      · exact Or.inr (of_decide_eq_true h1)
    · rw [if_pos hemp] at h
      cases h

/-- An empty cell reachable from the player's base is marked legal when no
forbidden set is supplied. -/
theorem legal_of_reach (b : Board) (pl : Player) (p : Pos)
    (hemp : b p = Cell.empty) (hr : Reaches b pl .stonesAndEmpties p) :
    computeLegalMoves b pl none p = true := by
  have hl0 := (mem_bfsFromBase_iff b pl .stonesAndEmpties p).2 hr
  rw [computeLegalMoves_none_apply, if_neg (by simp [hemp]), if_pos (by simp [hl0])]

/-- A board every stone of which reaches its own base is a fixed point of
capture resolution. -/
theorem resolveCaptures_fix (b : Board)
    (hw : ∀ p, b p = Cell.whiteStone → Reaches b .white .stonesAndEmpties p)
    (hb : ∀ p, b p = Cell.blackStone → Reaches b .black .stonesAndEmpties p) :
    resolveCaptures b = b := by
  funext p
  rw [resolveCaptures_apply]
  rw [if_neg, if_neg]
  · rintro ⟨hs, hm⟩
    rw [(mem_bfsFromBase_iff b .black .stonesAndEmpties p).2 (hb p hs)] at hm
    cases hm
  · rintro ⟨hs, hm⟩
    rw [(mem_bfsFromBase_iff b .white .stonesAndEmpties p).2 (hw p hs)] at hm
    cases hm

/-- A white stone surviving capture resolution was white and white-reachable on
the input board. -/
theorem resolve_white_stone (b : Board) (p : Pos)
    (h : resolveCaptures b p = Cell.whiteStone) :
    b p = Cell.whiteStone ∧ bfsFromBase b .white .stonesAndEmpties p = true := by
  rw [resolveCaptures_apply] at h
  by_cases h1 : b p = Cell.whiteStone ∧ bfsFromBase b .white .stonesAndEmpties p = false
  · rw [if_pos h1] at h
    cases h
  · rw [if_neg h1] at h
    by_cases h2 : b p = Cell.blackStone ∧ bfsFromBase b .black .stonesAndEmpties p = false
    · rw [if_pos h2] at h
      cases h
    · rw [if_neg h2] at h
      refine ⟨h, ?_⟩
      by_contra hm
      exact h1 ⟨h, by simpa using hm⟩

/-- A black stone surviving capture resolution was black and black-reachable on
the input board. -/
theorem resolve_black_stone (b : Board) (p : Pos)
    (h : resolveCaptures b p = Cell.blackStone) :
    b p = Cell.blackStone ∧ bfsFromBase b .black .stonesAndEmpties p = true := by
  rw [resolveCaptures_apply] at h
  by_cases h1 : b p = Cell.whiteStone ∧ bfsFromBase b .white .stonesAndEmpties p = false
  · rw [if_pos h1] at h
    cases h
  · rw [if_neg h1] at h
    by_cases h2 : b p = Cell.blackStone ∧ bfsFromBase b .black .stonesAndEmpties p = false
    · rw [if_pos h2] at h
      cases h
    · rw [if_neg h2] at h
      refine ⟨h, ?_⟩
      by_contra hm
      exact h2 ⟨h, by simpa using hm⟩

/-- Capture resolution is idempotent. -/
theorem resolveCaptures_idem (b : Board) :
    resolveCaptures (resolveCaptures b) = resolveCaptures b := by
  apply resolveCaptures_fix
  · intro p hp
    obtain ⟨hbp, hmask⟩ := resolve_white_stone b p hp
    have hre : Reaches b .white .stonesAndEmpties p :=
      (mem_bfsFromBase_iff b .white .stonesAndEmpties p).1 hmask
    exact Relation.ReflTransGen.mono
      (fun _ y hxy => ⟨hxy.1, trav_resolveCaptures b .white y hxy.2⟩) hre
  · intro p hp
    obtain ⟨hbp, hmask⟩ := resolve_black_stone b p hp
    have hre : Reaches b .black .stonesAndEmpties p :=
      (mem_bfsFromBase_iff b .black .stonesAndEmpties p).1 hmask
    exact Relation.ReflTransGen.mono
      (fun _ y hxy => ⟨hxy.1, trav_resolveCaptures b .black y hxy.2⟩) hre

/-- The per-cell fingerprint characters are pairwise distinct. -/
theorem cellChar_inj : ∀ x y : Cell, cellChar x = cellChar y → x = y := by decide

/-- Each fingerprint row has exactly `COLS` characters. -/
theorem rowChars_length (b : Board) (r : Fin ROWS) : (rowChars b r).length = COLS := by
  simp [rowChars]

/-- Equal fingerprint rows force equal cells across the row. -/
theorem rowChars_inj (b₁ b₂ : Board) (r : Fin ROWS)
    (h : rowChars b₁ r = rowChars b₂ r) : ∀ c : Fin COLS, b₁ (r, c) = b₂ (r, c) := by
  intro c
  have hf := List.ofFn_inj.1 h
  exact cellChar_inj _ _ (congrFun hf c)

/-- Equal fingerprints force equal cells everywhere: the rows have fixed length
`COLS`, so the separator-joined concatenation splits uniquely. -/
theorem boardHash_inj (b₁ b₂ : Board) (h : boardHash b₁ = boardHash b₂) :
    ∀ p : Pos, b₁ p = b₂ p := by
  have hl := congrArg String.data h
  simp only [boardHash] at hl
  have hlen : ∀ r : Fin ROWS, (rowChars b₁ r).length = (rowChars b₂ r).length := by
    intro r
    rw [rowChars_length, rowChars_length]
  obtain ⟨h0, hl⟩ := List.append_inj hl (hlen 0)
  injection hl with _ hl
  obtain ⟨h1, hl⟩ := List.append_inj hl (hlen 1)
  injection hl with _ hl
  obtain ⟨h2, hl⟩ := List.append_inj hl (hlen 2)
  injection hl with _ hl
  obtain ⟨h3, hl⟩ := List.append_inj hl (hlen 3)
  injection hl with _ hl
  obtain ⟨h4, hl⟩ := List.append_inj hl (hlen 4)
  injection hl with _ hl
  obtain ⟨h5, hl⟩ := List.append_inj hl (hlen 5)
  injection hl with _ hl
  obtain ⟨h6, hl⟩ := List.append_inj hl (hlen 6)
  injection hl with _ h7
  rintro ⟨r, c⟩
  fin_cases r
  · exact rowChars_inj b₁ b₂ 0 h0 c
  · exact rowChars_inj b₁ b₂ 1 h1 c
  · exact rowChars_inj b₁ b₂ 2 h2 c
  · exact rowChars_inj b₁ b₂ 3 h3 c
  · exact rowChars_inj b₁ b₂ 4 h4 c
  · exact rowChars_inj b₁ b₂ 5 h5 c
  · exact rowChars_inj b₁ b₂ 6 h6 c
  · exact rowChars_inj b₁ b₂ 7 h7 c

/-- C1: for every board, player, coordinate, and optional forbidden-fingerprint
set, whenever `computeLegalMoves` reports the move legal, placing the player's
stone at that coordinate and then applying `resolveCaptures` yields a board in
which the player's stone is still present there. -/
theorem legalMoves_true_implies_stone_survives (b : Board) (pl : Player)
    (forbid : Option (Finset String)) (p : Pos)
    (h : computeLegalMoves b pl forbid p = true) :
    resolveCaptures (placeAt b p (playerStone pl)) p = playerStone pl := by
  obtain ⟨hemp, hcase⟩ := legal_true_cases b pl forbid p h
  rcases hcase with hl0 | hdone
  · exact survive_of_reach b pl p
      ((mem_bfsFromBase_iff b pl .stonesAndEmpties p).1 hl0)
  · exact hdone

/-- C1 witness: Black's move at (6,3) on the initial board is legal and the
placed stone survives resolution. -/
theorem legalMoves_true_implies_stone_survives_witness :
    resolveCaptures (placeAt makeInitialBoard ((6 : Fin ROWS), (3 : Fin COLS))
      (playerStone .black)) ((6 : Fin ROWS), (3 : Fin COLS)) = playerStone .black :=
  legalMoves_true_implies_stone_survives makeInitialBoard .black none
    ((6 : Fin ROWS), (3 : Fin COLS))
    (legal_of_reach makeInitialBoard .black ((6 : Fin ROWS), (3 : Fin COLS))
      (by decide) (Relation.ReflTransGen.single ⟨by decide, by decide⟩))

/-- C2: `placeStone` invoked with the out-of-bounds row 8 on the initial 8×8
board follows the JavaScript semantics of `board[8][0]` and throws instead of
returning the rejection the specification requires. -/
theorem placeStoneRaw_out_of_bounds_row_throws :
    placeStoneRaw makeInitialBoard .white 8 0 none = Except.error () := rfl

/-- C3: `resolveCaptures` removes exactly the stones whose own color's
`stones+empties` reachability fails on the pre-resolution board — both colors
judged against the same input board — and leaves every other cell, bases
included, unchanged. -/
theorem resolveCaptures_characterization (b : Board) (p : Pos) :
    (b p = Cell.whiteStone → Reaches b .white .stonesAndEmpties p →
      resolveCaptures b p = Cell.whiteStone) ∧
    (b p = Cell.whiteStone → ¬ Reaches b .white .stonesAndEmpties p →
      resolveCaptures b p = Cell.empty) ∧
    (b p = Cell.blackStone → Reaches b .black .stonesAndEmpties p →
      resolveCaptures b p = Cell.blackStone) ∧
    (b p = Cell.blackStone → ¬ Reaches b .black .stonesAndEmpties p →
      resolveCaptures b p = Cell.empty) ∧
    (b p ≠ Cell.whiteStone → b p ≠ Cell.blackStone → resolveCaptures b p = b p) := by
  rw [resolveCaptures_apply]
  refine ⟨?_, ?_, ?_, ?_, ?_⟩
  · intro hs hr
    have hm := (mem_bfsFromBase_iff b .white .stonesAndEmpties p).2 hr
    rw [if_neg (by simp [hm]), if_neg (by simp [hs])]
    exact hs
  · intro hs hr
    have hm : bfsFromBase b .white .stonesAndEmpties p = false := by
      cases hmv : bfsFromBase b .white .stonesAndEmpties p
      · rfl
      · exact absurd ((mem_bfsFromBase_iff b .white .stonesAndEmpties p).1 hmv) hr
    rw [if_pos ⟨hs, hm⟩]
  · intro hs hr
    have hm := (mem_bfsFromBase_iff b .black .stonesAndEmpties p).2 hr
    rw [if_neg (by simp [hs]), if_neg (by simp [hm]), hs]
  · intro hs hr
    have hm : bfsFromBase b .black .stonesAndEmpties p = false := by
      cases hmv : bfsFromBase b .black .stonesAndEmpties p
      · rfl
      · exact absurd ((mem_bfsFromBase_iff b .black .stonesAndEmpties p).1 hmv) hr
    rw [if_neg (by simp [hs]), if_pos ⟨hs, hm⟩]
  · intro h1 h2
    rw [if_neg (fun hc => h1 hc.1), if_neg (fun hc => h2 hc.1)]

/-- C3 witness: cell (0,0) of the initial board is neither stone and is left
unchanged by `resolveCaptures`. -/
theorem resolveCaptures_characterization_witness :
    resolveCaptures makeInitialBoard ((0 : Fin ROWS), (0 : Fin COLS)) =
      makeInitialBoard ((0 : Fin ROWS), (0 : Fin COLS)) :=
  (resolveCaptures_characterization makeInitialBoard
    ((0 : Fin ROWS), (0 : Fin COLS))).2.2.2.2 (by decide) (by decide)

/-- C4: the `bfsFromBase` mask is true at the player's base and at exactly the
coordinates joined to the base by a path of neighboring cells each of which
(after the base) is traversable under the mode; traversability means empty,
own base, or own stone in `stones+empties` mode, and exactly empty in
`emptiesOnly` mode. -/
theorem bfsFromBase_characterization (b : Board) (pl : Player) (mode : Mode) :
    bfsFromBase b pl mode (playerBasePos pl) = true ∧
    (∀ p : Pos, bfsFromBase b pl mode p = true ↔ Reaches b pl mode p) ∧
    (∀ q : Pos, trav b pl .stonesAndEmpties q = true ↔
      (b q = Cell.empty ∨ b q = playerBase pl ∨ b q = playerStone pl)) ∧
    (∀ q : Pos, trav b pl .emptiesOnly q = true ↔ b q = Cell.empty) :=
  ⟨(mem_bfsFromBase_iff b pl mode (playerBasePos pl)).2 Relation.ReflTransGen.refl,
   fun p => mem_bfsFromBase_iff b pl mode p,
   fun q => by rw [trav_SE_apply]; exact decide_eq_true_iff,
   fun q => decide_eq_true_iff⟩

/-- C5: when the forbidden-fingerprint set contains the fingerprint of the
place-then-resolve result at an empty cell, `placeStone` rejects the move and
`computeLegalMoves` marks the cell false. -/
theorem forbidden_fingerprint_rejected (b : Board) (pl : Player) (p : Pos)
    (s : Finset String) (hemp : b p = Cell.empty)
    (hmem : boardHash (resolveCaptures (placeAt b p (playerStone pl))) ∈ s) :
    placeStone b pl p (some s) = none ∧ computeLegalMoves b pl (some s) p = false := by
  have hleg : computeLegalMoves b pl (some s) p = false := by
    rw [computeLegalMoves_some_apply, if_neg (by simp [hemp]), decide_eq_true hmem]
    simp
  refine ⟨?_, hleg⟩
  unfold placeStone
  rw [if_neg (by simp [hemp]), if_pos hleg]

/-- C5 witness: White's move at (0,0) on the initial board is rejected when its
post-resolution fingerprint is the sole member of the forbidden set. -/
theorem forbidden_fingerprint_rejected_witness :
    placeStone makeInitialBoard .white ((0 : Fin ROWS), (0 : Fin COLS))
      (some {boardHash (resolveCaptures (placeAt makeInitialBoard
        ((0 : Fin ROWS), (0 : Fin COLS)) (playerStone .white)))}) = none ∧
    computeLegalMoves makeInitialBoard .white
      (some {boardHash (resolveCaptures (placeAt makeInitialBoard
        ((0 : Fin ROWS), (0 : Fin COLS)) (playerStone .white)))})
      ((0 : Fin ROWS), (0 : Fin COLS)) = false :=
  forbidden_fingerprint_rejected makeInitialBoard .white
    ((0 : Fin ROWS), (0 : Fin COLS)) _ (by decide) (Finset.mem_singleton_self _)

/-- C6: capture resolution is idempotent, and a board on which every stone
reaches its own base is a fixed point. -/
theorem resolveCaptures_idempotent (b : Board) :
    resolveCaptures (resolveCaptures b) = resolveCaptures b ∧
    ((∀ p, b p = Cell.whiteStone → Reaches b .white .stonesAndEmpties p) →
     (∀ p, b p = Cell.blackStone → Reaches b .black .stonesAndEmpties p) →
     resolveCaptures b = b) :=
  ⟨resolveCaptures_idem b, resolveCaptures_fix b⟩

/-- C6 witness: the initial board (no stones, hence no disconnected stones) is
a fixed point and resolution on it is idempotent. -/
theorem resolveCaptures_idempotent_witness :
    resolveCaptures (resolveCaptures makeInitialBoard) =
      resolveCaptures makeInitialBoard ∧
    resolveCaptures makeInitialBoard = makeInitialBoard := by
  have hnw : ∀ p : Pos, ¬ makeInitialBoard p = Cell.whiteStone := by decide
  have hnb : ∀ p : Pos, ¬ makeInitialBoard p = Cell.blackStone := by decide
  exact ⟨(resolveCaptures_idempotent makeInitialBoard).1,
    (resolveCaptures_idempotent makeInitialBoard).2
      (fun p hp => absurd hp (hnw p)) (fun p hp => absurd hp (hnb p))⟩

/-- C7: each player's area total is stones plus territory, no empty cell is
counted as territory for both players, and a base cell is counted neither as a
stone nor as territory for either player. -/
theorem areaScore_decomposition (b : Board) :
    (computeAreaScore b).white = (computeAreaScore b).wStones + (computeAreaScore b).wTerr ∧
    (computeAreaScore b).black = (computeAreaScore b).bStones + (computeAreaScore b).bTerr ∧
    (∀ p : Pos, ¬ (isWhiteTerr b p = true ∧ isBlackTerr b p = true)) ∧
    (∀ p : Pos, b p = Cell.whiteBase ∨ b p = Cell.blackBase →
      isWhiteTerr b p = false ∧ isBlackTerr b p = false ∧
      b p ≠ Cell.whiteStone ∧ b p ≠ Cell.blackStone) := by
  refine ⟨rfl, rfl, ?_, ?_⟩
  · rintro p ⟨hw, hb⟩
    simp only [isWhiteTerr, Bool.and_eq_true, Bool.not_eq_true'] at hw
    simp only [isBlackTerr, Bool.and_eq_true, Bool.not_eq_true'] at hb
    rw [hw.1.2] at hb
    exact absurd hb.2 (by simp)
  · intro p hp
    rcases hp with hp | hp <;> simp [isWhiteTerr, isBlackTerr, hp]

/-- C7 witness: the white base cell of the initial board is counted in neither
territory and is neither stone. -/
theorem areaScore_decomposition_witness :
    isWhiteTerr makeInitialBoard WHITE_BASE_POS = false ∧
    isBlackTerr makeInitialBoard WHITE_BASE_POS = false ∧
    makeInitialBoard WHITE_BASE_POS ≠ Cell.whiteStone ∧
    makeInitialBoard WHITE_BASE_POS ≠ Cell.blackStone :=
  (areaScore_decomposition makeInitialBoard).2.2.2 WHITE_BASE_POS (Or.inl (by decide))

/-- C8 counterexample: the engine's board is 8×8, not 10×10 (and the black base
sits at (7,3), which does not even exist on the claimed layout as (9,5)). -/
theorem board_not_ten_by_ten : ¬ (ROWS = 10 ∧ COLS = 10) := by decide

/-- C8 (amended): the engine implements the 8×8 layout with the white base at
(0,4) and the black base at (7,3); from the initial board Black has a legal
move at (6,3), adjacent to the black base; placing there changes the
fingerprint; and White then has a legal move at (1,4), adjacent to the white
base. -/
theorem initial_scenario_eight_by_eight :
    ROWS = 8 ∧ COLS = 8 ∧
    WHITE_BASE_POS = ((0 : Fin ROWS), (4 : Fin COLS)) ∧
    BLACK_BASE_POS = ((7 : Fin ROWS), (3 : Fin COLS)) ∧
    ((6 : Fin ROWS), (3 : Fin COLS)) ∈ neighbors BLACK_BASE_POS ∧
    computeLegalMoves makeInitialBoard .black none ((6 : Fin ROWS), (3 : Fin COLS)) = true ∧
    placeStone makeInitialBoard .black ((6 : Fin ROWS), (3 : Fin COLS)) none =
      some (placeAt makeInitialBoard ((6 : Fin ROWS), (3 : Fin COLS)) Cell.blackStone) ∧
    boardHash (placeAt makeInitialBoard ((6 : Fin ROWS), (3 : Fin COLS)) Cell.blackStone) ≠
      boardHash makeInitialBoard ∧
    ((1 : Fin ROWS), (4 : Fin COLS)) ∈ neighbors WHITE_BASE_POS ∧
    computeLegalMoves
      (placeAt makeInitialBoard ((6 : Fin ROWS), (3 : Fin COLS)) Cell.blackStone)
      .white none ((1 : Fin ROWS), (4 : Fin COLS)) = true := by
  have hleg : computeLegalMoves makeInitialBoard .black none
      ((6 : Fin ROWS), (3 : Fin COLS)) = true :=
    legal_of_reach makeInitialBoard .black ((6 : Fin ROWS), (3 : Fin COLS))
      (by decide) (Relation.ReflTransGen.single ⟨by decide, by decide⟩)
  have honly : ∀ p : Pos,
      placeAt makeInitialBoard ((6 : Fin ROWS), (3 : Fin COLS)) Cell.blackStone p =
        Cell.blackStone → p = ((6 : Fin ROWS), (3 : Fin COLS)) := by decide
  have hnw : ∀ p : Pos,
      ¬ placeAt makeInitialBoard ((6 : Fin ROWS), (3 : Fin COLS)) Cell.blackStone p =
        Cell.whiteStone := by decide
  have hfix : resolveCaptures
      (placeAt makeInitialBoard ((6 : Fin ROWS), (3 : Fin COLS)) Cell.blackStone) =
      placeAt makeInitialBoard ((6 : Fin ROWS), (3 : Fin COLS)) Cell.blackStone := by
    refine resolveCaptures_fix _ (fun p hp => absurd hp (hnw p)) (fun p hp => ?_)
    rw [honly p hp]
    exact Relation.ReflTransGen.single ⟨by decide, by decide⟩
  refine ⟨rfl, rfl, rfl, rfl, by decide, hleg, ?_, by decide, by decide, ?_⟩
  · unfold placeStone
    rw [if_neg (by decide), if_neg (by simp [hleg])]
    exact congrArg some hfix
  · exact legal_of_reach _ .white ((1 : Fin ROWS), (4 : Fin COLS)) (by decide)
      (Relation.ReflTransGen.single ⟨by decide, by decide⟩)

/-- C9: two boards have the same fingerprint iff they have identical cell
values at every coordinate. -/
theorem boardHash_eq_iff (b₁ b₂ : Board) :
    boardHash b₁ = boardHash b₂ ↔ ∀ p : Pos, b₁ p = b₂ p :=
  ⟨boardHash_inj b₁ b₂, fun h => congrArg boardHash (funext h)⟩

set_option maxRecDepth 100000 in
set_option maxHeartbeats 1000000 in
/-- C10: the neighbor relation is symmetric on in-bounds coordinates, despite
even and odd columns using different direction tables. -/
theorem neighbors_symmetric : ∀ p q : Pos, q ∈ neighbors p ↔ p ∈ neighbors q := by
  decide


end AnchorHex
